import Mathlib

/-!
# Verification of the XOR-cipher cryptanalysis crates

Shallow embedding of the `cryptopals_solutions` workspace crates
`single_xor_cipher_3`, `repeating_key_xor_5` and `break_repeating_key_xor_6`.

Byte buffers (`Vec<u8>`, `&[u8]`) are embedded as `List Nat` whose elements
are the byte values; `char` is Lean's `Char` (both are Unicode scalar
values); `f32` percentages and chi-squared scores are idealised as `ℚ`
(exact field arithmetic); `HashMap<char, _>` is an association list
`List (Char × _)` with the usual no-duplicate-keys invariant carried as a
hypothesis where a theorem needs it; `Result<T, E>` is `Except`.
-/

namespace Cryptopals

/-- Is a byte a UTF-8 continuation byte (`0x80..=0xBF`)? -/
def isCont (b : Nat) : Bool := 0x80 ≤ b && b ≤ 0xBF

/-- Admissible ranges for the second byte of a three-byte UTF-8 sequence,
depending on the lead byte (rules out overlong encodings and surrogates,
as Rust's `str::from_utf8` does). -/
def cont3Ok (b c1 : Nat) : Bool :=
  if b = 0xE0 then 0xA0 ≤ c1 && c1 ≤ 0xBF
  else if b = 0xED then 0x80 ≤ c1 && c1 ≤ 0x9F
  else isCont c1

/-- Admissible ranges for the second byte of a four-byte UTF-8 sequence,
depending on the lead byte (rules out overlongs and values above
`U+10FFFF`, as Rust's `str::from_utf8` does). -/
def cont4Ok (b c1 : Nat) : Bool :=
  if b = 0xF0 then 0x90 ≤ c1 && c1 ≤ 0xBF
  else if b = 0xF4 then 0x80 ≤ c1 && c1 ≤ 0x8F
  else isCont c1

/-- UTF-8 decoding of a byte buffer into its characters, following exactly
the byte classes accepted by Rust's `str::from_utf8` (RFC 3629: lead bytes
`00..7F`, `C2..DF`, `E0..EF`, `F0..F4`, with per-lead continuation ranges;
`none` models a `Utf8Error`). -/
def utf8Decode : List Nat → Option (List Char)
  | [] => some []
  | b :: rest =>
    if b < 0x80 then
      (utf8Decode rest).map (fun cs => Char.ofNat b :: cs)
    else if 0xC2 ≤ b && b ≤ 0xDF then
      match rest with
      | c1 :: rest2 =>
        if isCont c1 then
          (utf8Decode rest2).map
            (fun cs => Char.ofNat ((b - 0xC0) * 0x40 + (c1 - 0x80)) :: cs)
        else none
      | [] => none
    else if 0xE0 ≤ b && b ≤ 0xEF then
      match rest with
      | c1 :: c2 :: rest2 =>
        if cont3Ok b c1 && isCont c2 then
          (utf8Decode rest2).map
            (fun cs =>
              Char.ofNat ((b - 0xE0) * 0x1000 + (c1 - 0x80) * 0x40 + (c2 - 0x80)) :: cs)
        else none
      | _ => none
    else if 0xF0 ≤ b && b ≤ 0xF4 then
      match rest with
      | c1 :: c2 :: c3 :: rest2 =>
        if cont4Ok b c1 && isCont c2 && isCont c3 then
          (utf8Decode rest2).map
            (fun cs =>
              Char.ofNat
                ((b - 0xF0) * 0x40000 + (c1 - 0x80) * 0x1000 +
                  (c2 - 0x80) * 0x40 + (c3 - 0x80)) :: cs)
        else none
      | _ => none
    else none

/-- Embeds `apply_xor_cipher` (single_xor_cipher_3): XOR every byte of the
encoded message with the key and decode the result as UTF-8; a `Utf8Error`
is modelled as `Except.error ()`. -/
def apply_xor_cipher (key : Nat) (encoded_msg : List Nat) : Except Unit (List Char) :=
  match utf8Decode (encoded_msg.map (fun encoded_byte => encoded_byte ^^^ key)) with
  | some decoded_str => .ok decoded_str
  | none => .error ()

/-- One step of `HashMap::entry(c).and_modify(|n| *n += f).or_insert(f)` on
an association list: add `f` to the existing entry for `c`, or append a
fresh entry `(c, f)`. -/
def addCount (counts : List (Char × Nat)) (c : Char) (f : Nat) : List (Char × Nat) :=
  if counts.any (fun p => p.1 == c) then
    counts.map (fun p => if p.1 == c then (p.1, p.2 + f) else p)
  else counts ++ [(c, f)]

/-- Embeds `get_character_frequencies` (single_xor_cipher_3): the number of
times each character appears in the text. -/
def get_character_frequencies (text : List Char) : List (Char × Nat) :=
  text.foldl (fun counts c => addCount counts c 1) []

/-- Embeds `get_character_percentages` (single_xor_cipher_3): each count
divided by `total_chars as f32 / 100.0`, in exact arithmetic. -/
def get_character_percentages (text : List Char) : List (Char × ℚ) :=
  let total_chars := text.length
  (get_character_frequencies text).map
    (fun p => (p.1, (p.2 : ℚ) / ((total_chars : ℚ) / 100)))

/-- Embeds `get_file_character_percentages`'s read loop
(single_xor_cipher_3, lines 125-143).  The file is modelled as the list of
chunks successively appended by `BufReader::read_line` (each line with its
terminator).  Note the source never clears `line` between iterations, so
each iteration counts the characters of the whole accumulated buffer; the
embedding reproduces that.  Returns the final counts map and `total_chars`. -/
def get_file_counts (stream : List (List Char)) : List (Char × Nat) × Nat :=
  let step := fun (st : List (Char × Nat) × Nat × List Char) (chunk : List Char) =>
    let line := st.2.2 ++ chunk
    let withLine :=
      (get_character_frequencies line).foldl
        (fun (acc : List (Char × Nat) × Nat) p => (addCount acc.1 p.1 p.2, acc.2 + p.2))
        (st.1, st.2.1)
    (addCount withLine.1 '\n' 1, withLine.2 + 1, line)
  let final := stream.foldl step ([], 0, [])
  (final.1, final.2.1)

/-- Embeds `get_file_character_percentages` (single_xor_cipher_3): the
accumulated counts each divided by the integer quotient `total_chars / 100`
cast to float (exact arithmetic; the `I/O` source is modelled as the list
of chunks read). -/
def get_file_character_percentages (stream : List (List Char)) : List (Char × ℚ) :=
  let r := get_file_counts stream
  r.1.map (fun p => (p.1, (p.2 : ℚ) / ((r.2 / 100 : ℕ) : ℚ)))

/-- `HashMap::remove` on an association list (used for `msg.remove(char)`
in `get_chi_squared`). -/
def removeKey (m : List (Char × ℚ)) (c : Char) : List (Char × ℚ) :=
  m.filter (fun p => !(p.1 == c))

/-- Embeds `get_chi_squared` (single_xor_cipher_3): first iterate over the
reference table, accumulating `(msg percent or 0 - reference percent)^2 /
reference percent` and removing each processed character from the message
table; then iterate over the remaining message entries, accumulating
`(reference percent or 0 - msg percent)^2 / msg percent`. -/
def get_chi_squared (reference : List (Char × ℚ)) (msg : List (Char × ℚ)) : ℚ :=
  let phase1 :=
    reference.foldl
      (fun (st : ℚ × List (Char × ℚ)) p =>
        let difference := ((List.lookup p.1 st.2).getD 0) - p.2
        (st.1 + difference * difference / p.2, removeKey st.2 p.1))
      (0, msg)
  phase1.2.foldl
    (fun chi p =>
      let difference := ((List.lookup p.1 reference).getD 0) - p.2
      chi + difference * difference / p.2)
    phase1.1

/-- Embeds the key-search loop of `single_xor_cipher_crack`
(single_xor_cipher_3, lines 31-71).  The hex front end and the reference
corpus file read are externalised: the function takes the already decoded
ciphertext bytes and the reference percentage table (the two-argument form
under which the workspace's other crates call it).  `for key in 0..255`
is embedded as a fold over `List.range 255`, keeping the first candidate
with the smallest chi-squared score; candidates that do not decode to
valid UTF-8 are skipped without being scored. -/
def single_xor_cipher_crack (encoded_bytes : List Nat) (reference_percentages : List (Char × ℚ)) :
    Except String (Nat × List Char) :=
  let final :=
    (List.range 255).foldl
      (fun (best : Option (ℚ × Nat × List Char)) key =>
        match apply_xor_cipher key encoded_bytes with
        | .error _ => best
        | .ok decode_attempt =>
          let new_chi :=
            get_chi_squared reference_percentages (get_character_percentages decode_attempt)
          match best with
          | none => some (new_chi, key, decode_attempt)
          | some b => if new_chi < b.1 then some (new_chi, key, decode_attempt) else some b)
      none
  match final with
  | none => .error "Did not find any key which resulted in a valid decoded UTF-8 string"
  | some b => .ok (b.2.1, b.2.2)

/-- The population-count loop of `get_hamming_distance`
(break_repeating_key_xor_6): `while xor != 0 { hamming += 1; xor &= xor - 1 }`,
written with a structural fuel counter.  `x &&& (x - 1)` is strictly below
`x` when `x ≠ 0`, so the loop runs at most `x` iterations and any fuel
`≥ x` computes the loop exactly (`popcountGo_fuel` below). -/
def popcountGo (fuel x : Nat) : Nat :=
  match fuel with
  | 0 => 0
  | fuel + 1 => if x ≠ 0 then popcountGo fuel (x &&& (x - 1)) + 1 else 0

/-- The population count of `x`: the loop run with sufficient fuel. -/
def popcountLoop (x : Nat) : Nat := popcountGo x x

/-- The byte-pair loop of `get_hamming_distance`: sum the population count
of `byte1 ^ byte2` over `zip(buf1, buf2)`. -/
def hammingSum (buf1 buf2 : List Nat) : Nat :=
  (buf1.zip buf2).foldl (fun hamming p => hamming + popcountLoop (p.1 ^^^ p.2)) 0

/-- Embeds `get_hamming_distance` (break_repeating_key_xor_6): errors on
buffers of different length, otherwise the total number of differing bits. -/
def get_hamming_distance (buf1 buf2 : List Nat) : Except String Nat :=
  if buf1.length ≠ buf2.length then
    .error "Cannot compute Hamming distance between two different length buffers.\n"
  else .ok (hammingSum buf1 buf2)

/-- Rust slice `&msg[a..b]`. -/
def slice (msg : List Nat) (a b : Nat) : List Nat := (msg.drop a).take (b - a)

/-- The consecutive-block loop of `get_likely_key_sizes`
(break_repeating_key_xor_6, lines 76-88): with `middle = start + key_size`
and `end = start + 2 * key_size`, while `end <= msg.len()` add the Hamming
distance between `msg[start..middle]` and `msg[middle..end]` and advance
all three cursors by `key_size`.  The slices have equal length, so the
source's `.unwrap()` always succeeds and `hammingSum` is used directly.
The loop is written with a structural fuel counter: each iteration
advances `start` by `key_size ≥ 1`, so at most `msg.length` iterations run
and fuel `msg.length + 1` computes the loop exactly.  (The guard
`0 < key_size` records that the surrounding `for` loop only produces key
sizes `≥ max(1, min_key_size)`; with `key_size = 0` the source loop would
not terminate.) -/
def totalHammingGo (msg : List Nat) (key_size : Nat) : Nat → Nat → Nat
  | 0, _ => 0
  | fuel + 1, start =>
    if 0 < key_size ∧ start + 2 * key_size ≤ msg.length then
      hammingSum (slice msg start (start + key_size))
          (slice msg (start + key_size) (start + 2 * key_size)) +
        totalHammingGo msg key_size fuel (start + key_size)
    else 0

/-- The consecutive-block total, run with sufficient fuel. -/
def totalHammingLoop (msg : List Nat) (key_size start : Nat) : Nat :=
  totalHammingGo msg key_size (msg.length + 1) start

/-- The score `get_likely_key_sizes` associates to a candidate key size
(break_repeating_key_xor_6, lines 90-104): the total Hamming distance
between consecutive blocks, divided by `msg.len() / key_size`, multiplied
by `1000` and divided by `key_size`, all in truncating integer arithmetic. -/
def keySizeScore (msg : List Nat) (key_size : Nat) : Nat :=
  let total_hamming := totalHammingLoop msg key_size 0
  let average_hamming := total_hamming / (msg.length / key_size)
  average_hamming * 1000 / key_size

/-- Strict lexicographic order on (score, key byte) pairs, the derived
`Ord` used by the source's `BinaryHeap<(i32, u8)>`. -/
def lexLt (a b : Nat × Nat) : Bool := a.1 < b.1 || (a.1 == b.1 && a.2 < b.2)

/-- `BinaryHeap::pop`: remove a greatest element (the heap is modelled as
the list of its elements; which maximal element is removed is irrelevant
to the theorems below, which only use that the result is a sublist). -/
def popMax (l : List (Nat × Nat)) : List (Nat × Nat) :=
  match l with
  | [] => []
  | x :: xs =>
    (x :: xs).erase ((x :: xs).foldl (fun a b => if lexLt a b then b else a) x)

/-- Embeds `get_likely_key_sizes` (break_repeating_key_xor_6): for each
`key_size` in `max(1, min_key_size)..=min(max_key_size, msg.len() / 2)`
push `(score, key_size as u8)` onto the heap and pop the worst entry
whenever the heap exceeds `no_of_sizes`; finally return the key sizes. -/
def get_likely_key_sizes (encoded_msg : List Nat)
    (min_key_size max_key_size no_of_sizes : Nat) : List Nat :=
  if no_of_sizes = 0 then []
  else
    let lo := Nat.max 1 min_key_size
    let hi := Nat.min max_key_size (encoded_msg.length / 2)
    let keysizes :=
      (List.range' lo (hi + 1 - lo)).foldl
        (fun heap key_size =>
          let heap2 := (keySizeScore encoded_msg key_size, key_size % 256) :: heap
          if no_of_sizes < heap2.length then popMax heap2 else heap2)
        []
    keysizes.map (fun p => p.2)

/-- The sub-buffer of ciphertext bytes a given key byte applies to
(`get_sized_key`'s inner loop): every byte whose index is congruent to
`key_byte_no` modulo `key_size`. -/
def partitionBytes (msg : List Nat) (key_size key_byte_no : Nat) : List Nat :=
  (msg.enum.filter (fun q => q.1 % key_size == key_byte_no)).map (fun q => q.2)

/-- Embeds `get_sized_key` (break_repeating_key_xor_6): for each key byte
position run the single-byte cracker on the corresponding partition and
append the recovered key byte; the source's `?` operator propagates the
first failure, embedded by folding in the `Except` monad. -/
def get_sized_key (encoded_msg : List Nat) (key_size : Nat)
    (reference_percentages : List (Char × ℚ)) : Except String (List Nat) :=
  (List.range key_size).foldlM
    (fun (key : List Nat) key_byte_no =>
      (single_xor_cipher_crack (partitionBytes encoded_msg key_size key_byte_no)
          reference_percentages).map
        (fun r => key ++ [r.1]))
    []

/-- The cycling-key loop of `multi_key_xor_encode` (repeating_key_xor_5):
`key.iter().cycle()` yields element `i % key.len()` at the `i`-th call, so
the loop is embedded with an explicit position counter.  (On an empty key
the source's `.unwrap()` panics; the theorems assume a non-empty key.) -/
def multiKeyXorAux (key : List Nat) (i : Nat) : List Nat → List Nat
  | [] => []
  | msg_byte :: rest =>
    (msg_byte ^^^ key.getD (i % key.length) 0) :: multiKeyXorAux key (i + 1) rest

/-- Embeds `multi_key_xor_encode` (repeating_key_xor_5): XOR each message
byte with the cyclically repeated key. -/
def multi_key_xor_encode (msg key : List Nat) : List Nat :=
  multiKeyXorAux key 0 msg

/-- Sum of the values of a frequency table. -/
def sumValues (m : List (Char × ℚ)) : ℚ := (m.map (fun p => p.2)).sum

/-- Sum of the values of a count table. -/
def sumCounts (m : List (Char × Nat)) : Nat := (m.map (fun p => p.2)).sum

/-- The key-length score the specification describes, for comparison with
`keySizeScore`.  Modelled from the spec's words: sum the Hamming distance
between every pair of consecutive non-overlapping `L`-byte blocks, divide
the total by the number of block-pairs to get an average, then multiply by
1000 and divide by `L`. -/
def claimedKeySizeScore (msg : List Nat) (key_size : Nat) : Nat :=
  let blockPairs := msg.length / key_size - 1
  let total :=
    ((List.range blockPairs).map
      (fun i =>
        hammingSum (slice msg (i * key_size) ((i + 1) * key_size))
          (slice msg ((i + 1) * key_size) ((i + 2) * key_size)))).sum
  total / blockPairs * 1000 / key_size

/-- The ciphertext of the claim C1 analysis: the UTF-8 plaintext
`"A" ++ fifteen two-byte characters U+0080, U+0100, ..., U+0780 ++ U+100000`
XORed with the key byte `255`.  By construction `255` is the only key byte
under which this buffer decodes to valid UTF-8 (`crack_key255_bug`). -/
def badCipher : List Nat :=
  [190, 61, 127, 59, 127, 57, 127, 55, 127, 53, 127, 51, 127, 49, 127, 47,
   127, 45, 127, 43, 127, 41, 127, 39, 127, 37, 127, 35, 127, 33, 127, 11,
   127, 127, 127]

/-- A small, well-formed reference frequency table used to instantiate
theorems at concrete inputs. -/
def tinyReference : List (Char × ℚ) := [('e', 60), ('t', 40)]

section Helpers

/-- Folding an addition over a list equals the initial value plus the sum
of the mapped list. -/
theorem foldl_add_eq {α : Type} {M : Type} [AddCommMonoid M] (f : α → M) :
    ∀ (l : List α) (acc : M), l.foldl (fun a x => a + f x) acc = acc + (l.map f).sum
  | [], acc => by simp
  | x :: xs, acc => by
    simp only [List.foldl, List.map, List.sum_cons]
    rw [foldl_add_eq f xs (acc + f x), add_assoc]

/-- A fuel of at least `x` computes the population-count loop exactly. -/
theorem popcountGo_fuel : ∀ (f1 f2 x : Nat), x ≤ f1 → x ≤ f2 →
    popcountGo f1 x = popcountGo f2 x := by
  intro f1
  induction f1 with
  | zero =>
    intro f2 x h1 _
    interval_cases x
    cases f2 <;> simp [popcountGo]
  | succ f1' ih =>
    intro f2 x h1 h2
    by_cases hx : x = 0
    · subst hx
      cases f2 <;> simp [popcountGo]
    · have hxpos : 0 < x := Nat.pos_of_ne_zero hx
      obtain ⟨f2', rfl⟩ : ∃ f2', f2 = f2' + 1 := ⟨f2 - 1, by omega⟩
      have hlt : x &&& (x - 1) < x :=
        Nat.lt_of_le_of_lt Nat.and_le_right (Nat.sub_lt hxpos Nat.one_pos)
      simp only [popcountGo, if_pos hx]
      rw [ih f2' (x &&& (x - 1)) (by omega) (by omega)]

/-- `hammingSum` as a sum over the zipped buffers. -/
theorem hammingSum_eq_sum (buf1 buf2 : List Nat) :
    hammingSum buf1 buf2 = ((buf1.zip buf2).map (fun p => popcountLoop (p.1 ^^^ p.2))).sum := by
  unfold hammingSum
  rw [foldl_add_eq, zero_add]

/-- Every pair in `A.zip A` has equal components. -/
theorem mem_zip_self {α : Type} : ∀ (A : List α) (p : α × α), p ∈ A.zip A → p.1 = p.2 := by
  intro A
  induction A with
  | nil => intro p hp; simp [List.zip] at hp
  | cons a t ih =>
    intro p hp
    rcases List.mem_cons.mp hp with h | h
    · subst h; rfl
    · exact ih p h

end Helpers

/-- Claim C7: for all equal-length byte buffers `A` and `B`,
`get_hamming_distance(A,B) == get_hamming_distance(B,A)` and
`get_hamming_distance(A,A) == 0`; for buffers of unequal length it fails
with the length-mismatch error instead of returning a value. -/
theorem hamming_distance_props (A B : List Nat) :
    get_hamming_distance A B = get_hamming_distance B A ∧
    get_hamming_distance A A = .ok 0 ∧
    (A.length ≠ B.length →
      get_hamming_distance A B =
        .error "Cannot compute Hamming distance between two different length buffers.\n") := by
  refine ⟨?_, ?_, ?_⟩
  · unfold get_hamming_distance
    by_cases h : A.length = B.length
    · rw [if_neg (by omega), if_neg (by omega)]
      have : hammingSum A B = hammingSum B A := by
        rw [hammingSum_eq_sum, hammingSum_eq_sum, ← List.zip_swap]
        rw [List.map_map]
        exact congrArg List.sum (List.map_congr_left (fun p _ => by
          simp [Function.comp, Nat.xor_comm]))
      rw [this]
    · rw [if_pos (by omega), if_pos (by omega)]
  · unfold get_hamming_distance
    rw [if_neg (by omega)]
    have : hammingSum A A = 0 := by
      rw [hammingSum_eq_sum]
      apply List.sum_eq_zero
      intro x hx
      obtain ⟨p, hp, rfl⟩ := List.mem_map.mp hx
      rw [mem_zip_self A p hp, Nat.xor_self]
      rfl
    rw [this]
  · intro h
    unfold get_hamming_distance
    rw [if_pos h]

/-- Witness for claim C7 at concrete buffers of unequal length. -/
theorem hamming_distance_props_witness :
    get_hamming_distance [3] [] =
      .error "Cannot compute Hamming distance between two different length buffers.\n" :=
  (hamming_distance_props [3] []).2.2 (by decide)

/-- The cycling XOR map is an involution at every starting counter. -/
theorem multiKeyXorAux_involutive (key : List Nat) :
    ∀ (msg : List Nat) (i : Nat), multiKeyXorAux key i (multiKeyXorAux key i msg) = msg := by
  intro msg
  induction msg with
  | nil => intro i; rfl
  | cons b rest ih =>
    intro i
    simp only [multiKeyXorAux, Nat.xor_assoc, Nat.xor_self, Nat.xor_zero]
    exact congrArg (fun t => b :: t) (ih (i + 1))

/-- Claim C8: repeating-key XOR is self-inverse: for every message byte
buffer `M` and every non-empty key buffer `K`,
`multi_key_xor_encode(multi_key_xor_encode(M, K), K) == M`. -/
theorem multi_key_xor_involutive (M K : List Nat) (hK : K ≠ []) :
    multi_key_xor_encode (multi_key_xor_encode M K) K = M :=
  multiKeyXorAux_involutive K M 0

/-- Witness for claim C8 at a concrete message and two-byte key. -/
theorem multi_key_xor_involutive_witness :
    multi_key_xor_encode (multi_key_xor_encode [1, 2, 3] [7, 9]) [7, 9] = [1, 2, 3] :=
  multi_key_xor_involutive [1, 2, 3] [7, 9] (by decide)

set_option maxRecDepth 8000 in
/-- Claim C1 (divergence): the candidate loop is `for key in 0..255`, so
key byte `255` is never tried.  On `badCipher` every key in `0..=254`
yields invalid UTF-8 while key `255` yields valid UTF-8, yet
`single_xor_cipher_crack` reports that no key produced a valid decoded
string. -/
theorem crack_key255_bug :
    (single_xor_cipher_crack badCipher tinyReference).isOk = false ∧
    (apply_xor_cipher 255 badCipher).isOk = true ∧
    (List.range 255).all (fun key => !(apply_xor_cipher key badCipher).isOk) = true := by
  refine ⟨by decide, by decide, by decide⟩

/-- Claim C3 (divergence): `get_file_character_percentages` never clears
the `line` buffer between `read_line` calls, so each iteration re-counts
the whole accumulated buffer.  Streaming the two lines `"ab\n"`, `"cd\n"`
yields `total_chars = 11` (not `4 + 4 = 8`) and a newline count of `5`
(not `2 + 2 = 4`): the first line's characters are counted twice. -/
theorem file_counts_buffer_accumulation :
    get_file_counts [['a', 'b', '\n'], ['c', 'd', '\n']] =
      ([('a', 2), ('b', 2), ('\n', 5), ('c', 1), ('d', 1)], 11) := by decide

/-- `addCount` preserves the no-duplicate-keys invariant. -/
theorem addCount_keys_nodup (counts : List (Char × Nat)) (c : Char) (f : Nat)
    (h : (counts.map Prod.fst).Nodup) : ((addCount counts c f).map Prod.fst).Nodup := by
  unfold addCount
  by_cases hany : counts.any (fun p => p.1 == c)
  · rw [if_pos hany, List.map_map]
    have : (Prod.fst ∘ fun p : Char × Nat => if p.1 == c then (p.1, p.2 + f) else p) =
        Prod.fst := by
      funext p
      by_cases hp : p.1 == c <;> simp [Function.comp, hp]
    rw [this]
    exact h
  · rw [if_neg hany, List.map_append]
    rw [List.nodup_append]
    refine ⟨h, List.nodup_singleton c, ?_⟩
    intro a ha hamem
    have haeq : a = c := by simpa using hamem
    subst haeq
    obtain ⟨p, hp, rfl⟩ := List.mem_map.mp ha
    rw [List.any_eq_true] at hany
    exact hany ⟨p, hp, by simp⟩

/-- `addCount` adds exactly `f` to the total count when keys are unique. -/
theorem addCount_sumCounts : ∀ (counts : List (Char × Nat)) (c : Char) (f : Nat),
    (counts.map Prod.fst).Nodup → sumCounts (addCount counts c f) = sumCounts counts + f := by
  intro counts
  induction counts with
  | nil => intro c f _; simp [addCount, sumCounts]
  | cons p rest ih =>
    intro c f h
    rw [List.map_cons, List.nodup_cons] at h
    obtain ⟨hpnot, hrest⟩ := h
    by_cases hpc : (p.1 == c) = true
    · have hceq : p.1 = c := beq_iff_eq.mp hpc
      have hany : (p :: rest).any (fun q => q.1 == c) = true := by
        simp [List.any_cons, hpc]
      unfold addCount
      rw [if_pos hany]
      have hmaprest : rest.map (fun q : Char × Nat => if q.1 == c then (q.1, q.2 + f) else q) =
          rest := by
        have : rest.map (fun q : Char × Nat => if q.1 == c then (q.1, q.2 + f) else q) =
            rest.map id := by
          apply List.map_congr_left
          intro q hq
          have hqne : q.1 ≠ c := by
            intro hqc
            exact hpnot (hceq ▸ hqc ▸ List.mem_map_of_mem Prod.fst hq)
          simp [hqne]
        rw [this, List.map_id]
      rw [List.map_cons, hmaprest]
      simp only [hpc, if_true, sumCounts, List.map_cons, List.sum_cons]
      omega
    · have hpcfalse : (p.1 == c) = false := by simpa using hpc
      have hstep : addCount (p :: rest) c f = p :: addCount rest c f := by
        cases htest : rest.any (fun q => q.1 == c) with
        | true =>
          have hcons : ((p :: rest).any fun q => q.1 == c) = true := by
            simp [List.any_cons, htest]
          unfold addCount
          rw [if_pos hcons, if_pos htest, List.map_cons]
          rw [hpcfalse]
          simp
        | false =>
          have hcons : ((p :: rest).any fun q => q.1 == c) = false := by
            simp [List.any_cons, htest, hpcfalse]
          unfold addCount
          rw [if_neg (by simp [hcons]), if_neg (by simp [htest])]
          simp
      rw [hstep]
      simp only [sumCounts, List.map_cons, List.sum_cons] at *
      rw [ih c f hrest]
      omega

/-- The character frequency table of a text has unique keys and its counts
sum to the length of the text. -/
theorem char_freq_props (text : List Char) :
    ((get_character_frequencies text).map Prod.fst).Nodup ∧
      sumCounts (get_character_frequencies text) = text.length := by
  suffices h : ∀ (t : List Char) (counts : List (Char × Nat)),
      (counts.map Prod.fst).Nodup →
      ((t.foldl (fun cs c => addCount cs c 1) counts).map Prod.fst).Nodup ∧
        sumCounts (t.foldl (fun cs c => addCount cs c 1) counts) = sumCounts counts + t.length by
    have := h text [] (by simp)
    unfold get_character_frequencies
    simpa [sumCounts] using this
  intro t
  induction t with
  | nil =>
    intro counts h
    simp only [List.foldl_nil, List.length_nil]
    exact ⟨h, by omega⟩
  | cons c rest ih =>
    intro counts h
    simp only [List.foldl_cons, List.length_cons]
    have h1 := addCount_keys_nodup counts c 1 h
    obtain ⟨ha, hb⟩ := ih (addCount counts c 1) h1
    refine ⟨ha, ?_⟩
    rw [hb, addCount_sumCounts counts c 1 h]
    omega

set_option maxRecDepth 2000 in
/-- Claim C4: tables built by `get_character_percentages` from non-empty
text sum to 100 (in exact arithmetic) and empty inputs give empty tables,
but `get_file_character_percentages` divides by the truncated integer
quotient `total_chars / 100`, so its entries need not sum to 100: on a
stream of eight `"ab\n"` lines the accumulated total is 116, the divisor
`116 / 100 = 1`, and the percentages sum to 116. -/
theorem percentages_sum_props :
    (∀ text : List Char, text ≠ [] → sumValues (get_character_percentages text) = 100) ∧
    get_character_percentages [] = [] ∧
    get_file_character_percentages [] = [] ∧
    sumValues (get_file_character_percentages (List.replicate 8 ['a', 'b', '\n'])) = 116 := by
  refine ⟨?_, rfl, rfl, ?_⟩
  · intro text htext
    have hlen : (text.length : ℚ) ≠ 0 := by
      simp only [ne_eq, Nat.cast_eq_zero, List.length_eq_zero]
      exact htext
    unfold sumValues get_character_percentages
    rw [List.map_map]
    have hterm : ((fun p : Char × ℚ => p.2) ∘
        fun p : Char × Nat => (p.1, (p.2 : ℚ) / ((text.length : ℚ) / 100))) =
        fun p : Char × Nat => (p.2 : ℚ) * (100 / (text.length : ℚ)) := by
      funext p
      simp only [Function.comp]
      rw [div_div_eq_mul_div, mul_div_assoc]
    rw [hterm, List.sum_map_mul_right]
    have hcast : ((get_character_frequencies text).map fun p : Char × Nat => (p.2 : ℚ)).sum =
        ((sumCounts (get_character_frequencies text) : ℕ) : ℚ) := by
      unfold sumCounts
      rw [Nat.cast_list_sum, List.map_map]
      rfl
    rw [hcast, (char_freq_props text).2]
    field_simp
  · have hc : get_file_counts (List.replicate 8 ['a', 'b', '\n']) =
        ([('a', 36), ('b', 36), ('\n', 44)], 116) := by decide
    unfold get_file_character_percentages sumValues
    rw [hc]
    norm_num

/-- Witness for claim C4's universally quantified part at a concrete
non-empty text. -/
theorem percentages_sum_props_witness :
    sumValues (get_character_percentages ['a', 'b']) = 100 :=
  percentages_sum_props.1 ['a', 'b'] (by decide)

/-- Removing one key from a table does not change the lookup of any other
key. -/
theorem lookup_removeKey_ne : ∀ (m : List (Char × ℚ)) (c c' : Char), c' ≠ c →
    List.lookup c' (removeKey m c) = List.lookup c' m := by
  intro m c c' hne
  induction m with
  | nil => rfl
  | cons p rest ih =>
    unfold removeKey at *
    rw [List.filter_cons]
    by_cases hp : (p.1 == c) = true
    · have hp1 : p.1 = c := beq_iff_eq.mp hp
      rw [if_neg (by simp [hp])]
      have : (c' == p.1) = false := beq_eq_false_iff_ne.mpr (hp1 ▸ hne)
      obtain ⟨p1, p2⟩ := p
      rw [List.lookup_cons]
      simp only at this
      rw [this, ih]
    · rw [if_pos (by simp [hp])]
      obtain ⟨p1, p2⟩ := p
      rw [List.lookup_cons, List.lookup_cons]
      cases hc' : c' == p1 with
      | true => rfl
      | false => rw [ih]

/-- Filtering the keys surviving `removeKey` by absence from `rest` is
filtering by absence from the extended table. -/
theorem removeKey_filter (msg : List (Char × ℚ)) (p : Char × ℚ) (rest : List (Char × ℚ)) :
    (removeKey msg p.1).filter (fun q => (List.lookup q.1 rest).isNone) =
      msg.filter (fun q => (List.lookup q.1 (p :: rest)).isNone) := by
  unfold removeKey
  rw [List.filter_filter]
  apply List.filter_congr
  intro q _
  obtain ⟨p1, p2⟩ := p
  rw [List.lookup_cons]
  cases hq : q.1 == p1 with
  | true => simp
  | false => simp

/-- The first loop of `get_chi_squared`: starting from accumulator `acc`
and message table `msg`, it adds one chi-squared term per reference entry
(looked up in the original `msg`, keys being unique) and leaves exactly
the message entries whose key is absent from the reference. -/
theorem chiPhase1_spec :
    ∀ (reference : List (Char × ℚ)) (msg : List (Char × ℚ)) (acc : ℚ),
    (reference.map Prod.fst).Nodup →
    reference.foldl
      (fun (st : ℚ × List (Char × ℚ)) p =>
        let difference := ((List.lookup p.1 st.2).getD 0) - p.2
        (st.1 + difference * difference / p.2, removeKey st.2 p.1))
      (acc, msg) =
      (acc + (reference.map
        (fun p => (((List.lookup p.1 msg).getD 0) - p.2) *
          (((List.lookup p.1 msg).getD 0) - p.2) / p.2)).sum,
       msg.filter (fun q => (List.lookup q.1 reference).isNone)) := by
  intro reference
  induction reference with
  | nil =>
    intro msg acc _
    simp [List.lookup]
  | cons p rest ih =>
    intro msg acc h
    rw [List.map_cons, List.nodup_cons] at h
    obtain ⟨hpnot, hrest⟩ := h
    rw [List.foldl_cons]
    simp only []
    rw [ih (removeKey msg p.1) _ hrest]
    have hmapeq : (rest.map
        (fun q => (((List.lookup q.1 (removeKey msg p.1)).getD 0) - q.2) *
          (((List.lookup q.1 (removeKey msg p.1)).getD 0) - q.2) / q.2)) =
        (rest.map
        (fun q => (((List.lookup q.1 msg).getD 0) - q.2) *
          (((List.lookup q.1 msg).getD 0) - q.2) / q.2)) := by
      apply List.map_congr_left
      intro q hq
      have hqne : q.1 ≠ p.1 := by
        intro heq
        exact hpnot (heq ▸ List.mem_map_of_mem Prod.fst hq)
      rw [lookup_removeKey_ne msg p.1 q.1 hqne]
    rw [hmapeq, removeKey_filter msg p rest]
    rw [List.map_cons, List.sum_cons, add_assoc]

/-- Closed form of `get_chi_squared` for a reference table with unique
keys: the sum of `(msg percent or 0 - ref percent)^2 / ref percent` over
the reference entries, plus the sum of `(0 - msg percent)^2 / msg percent`
over the message entries whose character is absent from the reference. -/
theorem chi_closed_form (reference msg : List (Char × ℚ))
    (h : (reference.map Prod.fst).Nodup) :
    get_chi_squared reference msg =
      (reference.map
        (fun p => (((List.lookup p.1 msg).getD 0) - p.2) *
          (((List.lookup p.1 msg).getD 0) - p.2) / p.2)).sum +
      ((msg.filter (fun q => (List.lookup q.1 reference).isNone)).map
        (fun q => (0 - q.2) * (0 - q.2) / q.2)).sum := by
  unfold get_chi_squared
  simp only []
  rw [chiPhase1_spec reference msg 0 h]
  simp only []
  rw [foldl_add_eq, zero_add]
  congr 1
  refine congrArg List.sum (List.map_congr_left ?_)
  intro q hq
  have habs : (List.lookup q.1 reference).isNone := (List.mem_filter.mp hq).2
  have : List.lookup q.1 reference = none := Option.isNone_iff_eq_none.mp habs
  rw [this]
  rfl

/-- Claim C5: `get_chi_squared` returns the sum, over every character in
the reference, of `(candidate_or_0 - reference)^2 / reference`, plus the
sum, over every character in the candidate absent from the reference, of
`(0 - candidate)^2 / candidate`. -/
theorem chi_squared_formula (reference msg : List (Char × ℚ))
    (h : (reference.map Prod.fst).Nodup) :
    get_chi_squared reference msg =
      (reference.map
        (fun p => (((List.lookup p.1 msg).getD 0) - p.2) *
          (((List.lookup p.1 msg).getD 0) - p.2) / p.2)).sum +
      ((msg.filter (fun q => (List.lookup q.1 reference).isNone)).map
        (fun q => (0 - q.2) * (0 - q.2) / q.2)).sum :=
  chi_closed_form reference msg h

/-- Witness for claim C5 at concrete reference and candidate tables. -/
theorem chi_squared_formula_witness :
    get_chi_squared [('a', (50 : ℚ)), ('b', 30)] [('a', 40), ('c', 60)] =
      ([(('a', (50 : ℚ))), ('b', 30)].map
        (fun p => (((List.lookup p.1 [(('a', (40 : ℚ))), ('c', 60)]).getD 0) - p.2) *
          (((List.lookup p.1 [(('a', (40 : ℚ))), ('c', 60)]).getD 0) - p.2) / p.2)).sum +
      (([(('a', (40 : ℚ))), ('c', 60)].filter
          (fun q => (List.lookup q.1 [(('a', (50 : ℚ))), ('b', 30)]).isNone)).map
        (fun q => (0 - q.2) * (0 - q.2) / q.2)).sum :=
  chi_squared_formula [('a', 50), ('b', 30)] [('a', 40), ('c', 60)] (by decide)

/-- A table entry makes its key's lookup succeed. -/
theorem lookup_isSome_of_mem : ∀ (l : List (Char × ℚ)) (p : Char × ℚ), p ∈ l →
    (List.lookup p.1 l).isSome := by
  intro l
  induction l with
  | nil => intro p hp; cases hp
  | cons q rest ih =>
    intro p hp
    obtain ⟨q1, q2⟩ := q
    rw [List.lookup_cons]
    cases hq : p.1 == q1 with
    | true => rfl
    | false =>
      rcases List.mem_cons.mp hp with h | h
      · subst h; simp at hq
      · exact ih p h

/-- In a table with unique keys, looking up a member's key returns its
value. -/
theorem lookup_eq_of_mem_nodup : ∀ (l : List (Char × ℚ)) (p : Char × ℚ),
    (l.map Prod.fst).Nodup → p ∈ l → List.lookup p.1 l = some p.2 := by
  intro l
  induction l with
  | nil => intro p _ hp; cases hp
  | cons q rest ih =>
    intro p h hp
    rw [List.map_cons, List.nodup_cons] at h
    obtain ⟨hqnot, hrest⟩ := h
    obtain ⟨q1, q2⟩ := q
    rw [List.lookup_cons]
    rcases List.mem_cons.mp hp with hh | hh
    · subst hh; simp
    · cases hq : p.1 == q1 with
      | true =>
        exfalso
        have heq : p.1 = q1 := beq_iff_eq.mp hq
        have hmm : p.1 ∈ rest.map Prod.fst := List.mem_map_of_mem Prod.fst hh
        exact hqnot (heq ▸ hmm)
      | false => exact ih p hrest hh

/-- A successful lookup comes from a table entry. -/
theorem mem_of_lookup_some : ∀ (l : List (Char × ℚ)) (c : Char) (v : ℚ),
    List.lookup c l = some v → (c, v) ∈ l := by
  intro l
  induction l with
  | nil => intro c v h; cases h
  | cons q rest ih =>
    intro c v h
    obtain ⟨q1, q2⟩ := q
    rw [List.lookup_cons] at h
    cases hq : c == q1 with
    | true =>
      rw [hq] at h
      have hc : c = q1 := beq_iff_eq.mp hq
      have hv : q2 = v := by simpa using h
      subst hc; subst hv
      exact List.mem_cons_self _ _
    | false =>
      rw [hq] at h
      exact List.mem_cons_of_mem _ (ih c v h)

/-- A list of non-negative rationals summing to zero is all zeros. -/
theorem list_sum_zero_elems : ∀ (l : List ℚ), (∀ x ∈ l, 0 ≤ x) → l.sum = 0 →
    ∀ x ∈ l, x = 0 := by
  intro l
  induction l with
  | nil => intro _ _ x hx; cases hx
  | cons a rest ih =>
    intro hnn hsum x hx
    rw [List.sum_cons] at hsum
    have ha : 0 ≤ a := hnn a (List.mem_cons_self _ _)
    have hrest : 0 ≤ rest.sum := List.sum_nonneg (fun y hy => hnn y (List.mem_cons_of_mem _ hy))
    have ha0 : a = 0 := by linarith
    have hrest0 : rest.sum = 0 := by linarith
    rcases List.mem_cons.mp hx with h | h
    · exact h ▸ ha0
    · exact ih (fun y hy => hnn y (List.mem_cons_of_mem _ hy)) hrest0 x h

/-- Claim C6: for a reference table with unique keys and strictly positive
entries, `get_chi_squared R R = 0`; moreover, against any candidate table
with strictly positive entries, a zero score forces the two tables to
agree on the value (or absence) of every character key. -/
theorem chi_squared_self_zero (R msg : List (Char × ℚ))
    (hnd : (R.map Prod.fst).Nodup)
    (hRpos : ∀ p ∈ R, 0 < p.2) (hMpos : ∀ p ∈ msg, 0 < p.2) :
    get_chi_squared R R = 0 ∧
    (get_chi_squared R msg = 0 →
      ∀ c : Char, (List.lookup c R).getD 0 = (List.lookup c msg).getD 0) := by
  constructor
  · rw [chi_closed_form R R hnd]
    have h1 : (R.map
        (fun p => (((List.lookup p.1 R).getD 0) - p.2) *
          (((List.lookup p.1 R).getD 0) - p.2) / p.2)).sum = 0 := by
      apply List.sum_eq_zero
      intro x hx
      obtain ⟨p, hp, rfl⟩ := List.mem_map.mp hx
      rw [lookup_eq_of_mem_nodup R p hnd hp]
      simp
    have h2 : R.filter (fun q => (List.lookup q.1 R).isNone) = [] := by
      rw [List.filter_eq_nil]
      intro q hq
      have := lookup_isSome_of_mem R q hq
      simp only [Option.isNone_iff_eq_none]
      intro hnone
      rw [hnone] at this
      cases this
    rw [h1, h2]
    simp
  · intro hzero c
    rw [chi_closed_form R msg hnd] at hzero
    set S1 := (R.map
        (fun p => (((List.lookup p.1 msg).getD 0) - p.2) *
          (((List.lookup p.1 msg).getD 0) - p.2) / p.2)).sum with hS1
    set S2 := ((msg.filter (fun q => (List.lookup q.1 R).isNone)).map
        (fun q => (0 - q.2) * (0 - q.2) / q.2)).sum with hS2
    have hS1nn : ∀ x ∈ (R.map
        (fun p => (((List.lookup p.1 msg).getD 0) - p.2) *
          (((List.lookup p.1 msg).getD 0) - p.2) / p.2)), 0 ≤ x := by
      intro x hx
      obtain ⟨p, hp, rfl⟩ := List.mem_map.mp hx
      exact div_nonneg (mul_self_nonneg _) (le_of_lt (hRpos p hp))
    have hS2nn : ∀ x ∈ ((msg.filter (fun q => (List.lookup q.1 R).isNone)).map
        (fun q => (0 - q.2) * (0 - q.2) / q.2)), 0 ≤ x := by
      intro x hx
      obtain ⟨q, hq, rfl⟩ := List.mem_map.mp hx
      have hqmsg : q ∈ msg := (List.mem_filter.mp hq).1
      exact div_nonneg (mul_self_nonneg _) (le_of_lt (hMpos q hqmsg))
    have hS1z : S1 = 0 := by
      have h1 : 0 ≤ S1 := List.sum_nonneg hS1nn
      have h2 : 0 ≤ S2 := List.sum_nonneg hS2nn
      linarith
    have hS2z : S2 = 0 := by
      have h1 : 0 ≤ S1 := List.sum_nonneg hS1nn
      have h2 : 0 ≤ S2 := List.sum_nonneg hS2nn
      linarith
    have hRagree : ∀ p ∈ R, (List.lookup p.1 msg).getD 0 = p.2 := by
      intro p hp
      have hterm := list_sum_zero_elems _ hS1nn hS1z _
        (List.mem_map_of_mem _ hp)
      have hp2 : p.2 ≠ 0 := ne_of_gt (hRpos p hp)
      rcases div_eq_zero_iff.mp hterm with hnum | hden
      · have := mul_self_eq_zero.mp hnum
        linarith [sub_eq_zero.mp this]
      · exact absurd hden hp2
    have hMcovered : ∀ q ∈ msg, (List.lookup q.1 R).isSome := by
      intro q hq
      by_contra hnot
      have hqfilt : q ∈ msg.filter (fun r => (List.lookup r.1 R).isNone) := by
        rw [List.mem_filter]
        refine ⟨hq, ?_⟩
        simp only [Option.isNone_iff_eq_none]
        exact Option.not_isSome_iff_eq_none.mp hnot
      have hterm := list_sum_zero_elems _ hS2nn hS2z _
        (List.mem_map_of_mem (fun r => (0 - r.2) * (0 - r.2) / r.2) hqfilt)
      have hq2 : q.2 ≠ 0 := ne_of_gt (hMpos q hq)
      rcases div_eq_zero_iff.mp hterm with hnum | hden
      · have := mul_self_eq_zero.mp hnum
        have : q.2 = 0 := by linarith [this]
        exact hq2 this
      · exact hq2 hden
    cases hcR : List.lookup c R with
    | some v =>
      have hmem : (c, v) ∈ R := mem_of_lookup_some R c v hcR
      have := hRagree (c, v) hmem
      simpa using this.symm
    | none =>
      cases hcM : List.lookup c msg with
      | some w =>
        exfalso
        have hmem : (c, w) ∈ msg := mem_of_lookup_some msg c w hcM
        have := hMcovered (c, w) hmem
        simp only at this
        rw [hcR] at this
        cases this
      | none => rfl

/-- Witness for claim C6 at a concrete positive reference table. -/
theorem chi_squared_self_zero_witness :
    get_chi_squared [('a', (50 : ℚ)), ('b', 50)] [('a', (50 : ℚ)), ('b', 50)] = 0 :=
  (chi_squared_self_zero [('a', 50), ('b', 50)] [('a', 50), ('b', 50)]
    (by decide) (by decide) (by decide)).1

/-- The consecutive-block loop as an indexed sum: starting at block `j`,
with `msg.len / L - 1 - j` remaining block-pairs and enough fuel, the loop
sums the Hamming distances of blocks `(i, i+1)` for
`i = j, ..., msg.len / L - 2`. -/
theorem totalHammingGo_spec (msg : List Nat) (L : Nat) (hL : 0 < L) :
    ∀ (m j fuel : Nat), msg.length / L - 1 - j = m → m < fuel →
    totalHammingGo msg L fuel (j * L) =
      ((List.range' j m).map
        (fun i => hammingSum (slice msg (i * L) ((i + 1) * L))
          (slice msg ((i + 1) * L) ((i + 2) * L)))).sum := by
  intro m
  induction m with
  | zero =>
    intro j fuel hm hfuel
    obtain ⟨f, rfl⟩ : ∃ f, fuel = f + 1 := ⟨fuel - 1, by omega⟩
    show totalHammingGo msg L (f + 1) (j * L) = _
    unfold totalHammingGo
    rw [if_neg]
    · simp
    · rintro ⟨-, hle⟩
      have : (j + 2) * L ≤ msg.length := by
        calc (j + 2) * L = j * L + 2 * L := by ring
        _ ≤ msg.length := hle
      have := (Nat.le_div_iff_mul_le hL).mpr this
      omega
  | succ m ih =>
    intro j fuel hm hfuel
    obtain ⟨f, rfl⟩ : ∃ f, fuel = f + 1 := ⟨fuel - 1, by omega⟩
    have hcond : j * L + 2 * L ≤ msg.length := by
      have hj2 : j + 2 ≤ msg.length / L := by omega
      have := (Nat.le_div_iff_mul_le hL).mp hj2
      calc j * L + 2 * L = (j + 2) * L := by ring
      _ ≤ msg.length := this
    show totalHammingGo msg L (f + 1) (j * L) = _
    unfold totalHammingGo
    rw [if_pos ⟨hL, hcond⟩]
    have hnext : (j + 1) * L = j * L + L := by ring
    have hnext2 : (j + 2) * L = j * L + 2 * L := by ring
    have hrange : List.range' j (m + 1) = j :: List.range' (j + 1) m := List.range'_succ j m 1
    rw [hrange, List.map_cons, List.sum_cons]
    rw [hnext, hnext2]
    congr 1
    rw [← hnext, ih (j + 1) f (by omega) (by omega)]

/-- Counterexample to claim C2 as stated: on the four-byte ciphertext
`[0, 255, 0, 255]` with candidate length 1 there are three consecutive
block-pairs, each at Hamming distance 8, so the total 24 divided by the
number of block-pairs would give the score `24 / 3 * 1000 = 8000`, but the
code divides by the number of blocks `len / L = 4`, giving `6000`. -/
theorem keySizeScore_counterexample :
    keySizeScore [0, 255, 0, 255] 1 = 6000 ∧
    claimedKeySizeScore [0, 255, 0, 255] 1 = 8000 ∧
    keySizeScore [0, 255, 0, 255] 1 ≠ claimedKeySizeScore [0, 255, 0, 255] 1 :=
  ⟨by decide, by decide, by decide⟩

/-- Claim C2 (amended): for every candidate length `L ≥ 1` in range
(`2 * L ≤ len`), the estimator's score is the sum of Hamming distances
between every pair of consecutive non-overlapping `L`-byte blocks, divided
by the number of blocks `len / L` (one more than the number of
block-pairs), then multiplied by 1000 and divided by `L`, in truncating
integer arithmetic. -/
theorem keySizeScore_closed_form (msg : List Nat) (L : Nat) (hL : 0 < L)
    (hlen : 2 * L ≤ msg.length) :
    keySizeScore msg L =
      ((List.range (msg.length / L - 1)).map
        (fun i => hammingSum (slice msg (i * L) ((i + 1) * L))
          (slice msg ((i + 1) * L) ((i + 2) * L)))).sum /
        (msg.length / L) * 1000 / L := by
  unfold keySizeScore totalHammingLoop
  have h0 : (0 : Nat) = 0 * L := (Nat.zero_mul L).symm
  rw [h0, totalHammingGo_spec msg L hL (msg.length / L - 1) 0 (msg.length + 1) (by omega)
    (by have := Nat.div_le_self msg.length L; omega)]
  rw [List.range_eq_range']

/-- Witness for the amended claim C2 at the counterexample input. -/
theorem keySizeScore_closed_form_witness :
    keySizeScore [0, 255, 0, 255] 1 =
      ((List.range (([0, 255, 0, 255] : List Nat).length / 1 - 1)).map
        (fun i => hammingSum (slice [0, 255, 0, 255] (i * 1) ((i + 1) * 1))
          (slice [0, 255, 0, 255] ((i + 1) * 1) ((i + 2) * 1)))).sum /
        (([0, 255, 0, 255] : List Nat).length / 1) * 1000 / 1 :=
  keySizeScore_closed_form [0, 255, 0, 255] 1 (by decide) (by decide)

/-- The key-building fold of `get_sized_key` succeeds exactly when the
cracker succeeds on every remaining position, and then the produced key is
the accumulator extended by the cracked bytes in position order. -/
theorem get_sized_key_fold (msg : List Nat) (L : Nat) (ref : List (Char × ℚ)) :
    ∀ (n j : Nat) (acc key : List Nat),
    ((List.range' j n).foldlM
      (fun (key : List Nat) key_byte_no =>
        (single_xor_cipher_crack (partitionBytes msg L key_byte_no) ref).map
          (fun r => key ++ [r.1]))
      acc = Except.ok key) ↔
    (∃ t : List Nat, key = acc ++ t ∧ t.length = n ∧
      ∀ i, i < n → ∃ r, single_xor_cipher_crack (partitionBytes msg L (j + i)) ref = .ok r ∧
        t.getD i 0 = r.1) := by
  intro n
  induction n with
  | zero =>
    intro j acc key
    simp only [List.range'_zero, List.foldlM_nil]
    constructor
    · intro h
      have : acc = key := by
        have := h
        simpa [pure, Except.pure] using this
      exact ⟨[], by simp [this], rfl, fun i hi => absurd hi (Nat.not_lt_zero i)⟩
    · rintro ⟨t, hkey, hlen, -⟩
      have : t = [] := List.length_eq_zero.mp hlen
      subst this
      simp only [List.append_nil] at hkey
      subst hkey
      rfl
  | succ n ih =>
    intro j acc key
    rw [List.range'_succ, List.foldlM_cons]
    cases hc : single_xor_cipher_crack (partitionBytes msg L j) ref with
    | error e =>
      simp only [Except.map, Bind.bind, Except.bind]
      constructor
      · intro h
        cases h
      · rintro ⟨t, -, -, hall⟩
        obtain ⟨r, hr, -⟩ := hall 0 (Nat.succ_pos n)
        rw [Nat.add_zero] at hr
        rw [hr] at hc
        cases hc
    | ok r =>
      show ((List.range' (j + 1) n).foldlM
          (fun (key : List Nat) key_byte_no =>
            (single_xor_cipher_crack (partitionBytes msg L key_byte_no) ref).map
              (fun s => key ++ [s.1]))
          (acc ++ [r.1]) = Except.ok key) ↔ _
      rw [ih (j + 1) (acc ++ [r.1]) key]
      constructor
      · rintro ⟨t', hkey, hlen, hall⟩
        refine ⟨r.1 :: t', by simpa using hkey, by simpa using hlen, ?_⟩
        intro i hi
        cases i with
        | zero => exact ⟨r, by simpa using hc, rfl⟩
        | succ i' =>
          obtain ⟨s, hs, hgd⟩ := hall i' (by omega)
          refine ⟨s, ?_, by simpa using hgd⟩
          have : j + (i' + 1) = j + 1 + i' := by omega
          rw [this]
          exact hs
      · rintro ⟨t, hkey, hlen, hall⟩
        cases t with
        | nil => cases hlen
        | cons t0 t' =>
          obtain ⟨r0, hr0, hgd0⟩ := hall 0 (Nat.succ_pos n)
          rw [Nat.add_zero, hc] at hr0
          have hr0eq : r0 = r := by
            cases hr0
            rfl
          have ht0 : t0 = r.1 := by
            rw [← hr0eq]
            simpa using hgd0
          subst ht0
          refine ⟨t', by simpa using hkey, by simpa using hlen, ?_⟩
          intro i hi
          obtain ⟨s, hs, hgd⟩ := hall (i + 1) (by omega)
          refine ⟨s, ?_, by simpa using hgd⟩
          have : j + 1 + i = j + (i + 1) := by omega
          rw [this]
          exact hs

/-- Claim C9: `get_sized_key` returns `Ok key` exactly when the single-byte
cracker succeeds on every index-modulo-`key_size` partition, in which case
`key` lists the cracked byte of each position in order; if the cracker
fails on any position the whole recovery fails (no partial key). -/
theorem get_sized_key_partition (msg : List Nat) (L : Nat) (ref : List (Char × ℚ)) :
    (∀ key : List Nat,
      get_sized_key msg L ref = .ok key ↔
        (key.length = L ∧
          ∀ p, p < L →
            ∃ r, single_xor_cipher_crack (partitionBytes msg L p) ref = .ok r ∧
              key.getD p 0 = r.1)) ∧
    ((∃ p, p < L ∧ (single_xor_cipher_crack (partitionBytes msg L p) ref).isOk = false) →
      (get_sized_key msg L ref).isOk = false) := by
  have hmain : ∀ key : List Nat,
      get_sized_key msg L ref = .ok key ↔
        (key.length = L ∧
          ∀ p, p < L →
            ∃ r, single_xor_cipher_crack (partitionBytes msg L p) ref = .ok r ∧
              key.getD p 0 = r.1) := by
    intro key
    unfold get_sized_key
    rw [List.range_eq_range', get_sized_key_fold msg L ref L 0 [] key]
    constructor
    · rintro ⟨t, hkey, hlen, hall⟩
      simp only [List.nil_append] at hkey
      subst hkey
      refine ⟨hlen, ?_⟩
      intro p hp
      obtain ⟨r, hr, hgd⟩ := hall p (hlen ▸ hp)
      rw [Nat.zero_add] at hr
      exact ⟨r, hr, hgd⟩
    · rintro ⟨hlen, hall⟩
      refine ⟨key, by simp, hlen, ?_⟩
      intro i hi
      obtain ⟨r, hr, hgd⟩ := hall i (by omega)
      refine ⟨r, ?_, hgd⟩
      rw [Nat.zero_add]
      exact hr
  refine ⟨hmain, ?_⟩
  rintro ⟨p, hp, hfail⟩
  cases hres : get_sized_key msg L ref with
  | error e => rfl
  | ok key =>
    exfalso
    obtain ⟨-, hall⟩ := (hmain key).mp hres
    obtain ⟨r, hr, -⟩ := hall p hp
    rw [hr] at hfail
    cases hfail

set_option maxRecDepth 8000 in
/-- Witness for claim C9: on `badCipher` with key size 1, position 0's
partition is the whole buffer, the cracker fails on it, and so the whole
recovery fails. -/
theorem get_sized_key_partition_witness :
    (get_sized_key badCipher 1 tinyReference).isOk = false :=
  (get_sized_key_partition badCipher 1 tinyReference).2 ⟨0, by decide, by decide⟩

/-- Popping the maximum from the heap only removes elements. -/
theorem popMax_subset : ∀ (l : List (Nat × Nat)) (x : Nat × Nat), x ∈ popMax l → x ∈ l := by
  intro l x hx
  cases l with
  | nil => cases hx
  | cons a as =>
    unfold popMax at hx
    exact List.Sublist.subset (List.erase_sublist _ _) hx

/-- Every element of the key-size heap fold comes from the initial heap or
was pushed as `(keySizeScore msg L, L % 256)` for some processed `L`. -/
theorem heap_fold_mem (msg : List Nat) (n : Nat) :
    ∀ (lst : List Nat) (heap : List (Nat × Nat)) (x : Nat × Nat),
    x ∈ lst.foldl
      (fun heap key_size =>
        let heap2 := (keySizeScore msg key_size, key_size % 256) :: heap
        if n < heap2.length then popMax heap2 else heap2)
      heap →
    x ∈ heap ∨ ∃ L ∈ lst, x = (keySizeScore msg L, L % 256) := by
  intro lst
  induction lst with
  | nil => intro heap x hx; exact Or.inl hx
  | cons L rest ih =>
    intro heap x hx
    rw [List.foldl_cons] at hx
    rcases ih _ x hx with hmem | ⟨L', hL', hx'⟩
    · have hx2 : x ∈ (keySizeScore msg L, L % 256) :: heap := by
        by_cases hlen : n < ((keySizeScore msg L, L % 256) :: heap).length
        · simp only [hlen, if_true] at hmem
          exact popMax_subset _ x hmem
        · simp only [hlen, if_false] at hmem
          exact hmem
      rcases List.mem_cons.mp hx2 with h | h
      · exact Or.inr ⟨L, List.mem_cons_self _ _, h⟩
      · exact Or.inl h
    · exact Or.inr ⟨L', List.mem_cons_of_mem _ hL', hx'⟩

/-- Claim C10: every element returned by `get_likely_key_sizes` is the
`u8` cast `L % 256` of some candidate length `L` in the searched range
`[max(1, min_key_size), min(max_key_size, len / 2)]`. -/
theorem get_likely_key_sizes_mod256 (msg : List Nat) (mn mx n e : Nat)
    (he : e ∈ get_likely_key_sizes msg mn mx n) :
    ∃ L, Nat.max 1 mn ≤ L ∧ L ≤ Nat.min mx (msg.length / 2) ∧ e = L % 256 := by
  unfold get_likely_key_sizes at he
  by_cases hn : n = 0
  · rw [if_pos hn] at he
    cases he
  · rw [if_neg hn] at he
    simp only [List.mem_map] at he
    obtain ⟨x, hx, hxe⟩ := he
    rcases heap_fold_mem msg n _ [] x hx with h | ⟨L, hL, hxL⟩
    · cases h
    · rw [List.mem_range'_1] at hL
      refine ⟨L, hL.1, by omega, ?_⟩
      rw [← hxe, hxL]

set_option maxRecDepth 4000 in
/-- Witness for claim C10: a 512-byte ciphertext searched exactly at
candidate length 256 returns the wrapped length `256 % 256 = 0`. -/
theorem get_likely_key_sizes_mod256_witness :
    ∃ L, Nat.max 1 256 ≤ L ∧
      L ≤ Nat.min 256 ((List.replicate 512 (0 : Nat)).length / 2) ∧ (0 : Nat) = L % 256 :=
  get_likely_key_sizes_mod256 (List.replicate 512 0) 256 256 1 0 (by decide)

end Cryptopals
